import Mathlib

/-!
Shallow embedding of `midi_encoder.py` (class `MidiEncoder` and its helpers).

Python's unbounded integers are modelled as `Nat`; the fractional note
durations (exact dyadic/triplet fractions in the source) are modelled as `Rat`.
A `mido.Message` is modelled by the four fields the encoder sets.  The
caller-supplied `deque` that `encode_chunk` pops from is modelled by passing
the nibble list in and returning the list that remains in the deque when the
call returns.
-/

/-- Embeds the `NibbleTarget` enum of `midi_encoder.py`. -/
inductive NibbleTarget where
  | CHANNEL
  | NOTE
  | VELOCITY
  | TIMING
  | LENGTH
deriving DecidableEq, Repr

/-- Embeds the enum lookup `NibbleTarget(c)`: `none` models the `ValueError`
Python raises on a character outside the enum's values. -/
def nibbleTargetOfChar (c : Char) : Option NibbleTarget :=
  if c = 'c' then some .CHANNEL
  else if c = 'n' then some .NOTE
  else if c = 'v' then some .VELOCITY
  else if c = 't' then some .TIMING
  else if c = 'l' then some .LENGTH
  else none

/-- Embeds the `Remainder` dataclass. -/
structure Remainder where
  bits : String
  pattern_position : Nat
deriving DecidableEq, Repr

/-- Embeds the `MessageComponent` dataclass.  Its Python `__eq__`/`__hash__`
compare only `(message_id, component_type)`; that key-based equality is kept
in the operations below, not in this structure's equality. -/
structure MessageComponent where
  message_id : Nat
  component_type : NibbleTarget
  value : Nat
deriving DecidableEq, Repr

/-- Embeds the fields of `mido.Message` that `encode_chunk` sets.  `time` is
an `int` on the note-on message and a fractional duration on the note-off
message in the source, so it is a `Rat` here. -/
structure MidiMessage where
  channel : Nat
  note : Nat
  velocity : Nat
  time : Rat
deriving DecidableEq, Repr

/-- Embeds the exception classes: `patternError` and `nibbleProcessingError`
mirror `PatternError` and `NibbleProcessingError`; `invalidPatternChar`
models the `ValueError` from `NibbleTarget(c)` on a foreign character, which
is unreachable for an encoder built by `MidiEncoder.init`. -/
inductive MidiEncoderError where
  | patternError
  | nibbleProcessingError
  | invalidPatternChar
deriving DecidableEq, Repr

/-- Embeds the `MidiEncoder` class state: after `__init__` the only instance
state is the validated pattern string. -/
structure MidiEncoder where
  pattern : List Char
deriving DecidableEq, Repr

/-- Embeds `MidiEncoder.__init__`: the pattern must be non-empty and drawn
from the characters `c,n,v,t,l`, else `PatternError` is raised. -/
def MidiEncoder.init (pattern : List Char) : Except MidiEncoderError MidiEncoder :=
  if pattern.isEmpty || !(pattern.all (fun c => ['c', 'n', 'v', 't', 'l'].contains c)) then
    .error .patternError
  else
    .ok ⟨pattern⟩

/-- Decodes every pattern character through `nibbleTargetOfChar`; `none` when
any character is foreign (Python would raise `ValueError` at that position
inside the processing loop, unreachable after a successful `__init__`). -/
def decodePattern : List Char → Option (List NibbleTarget)
  | [] => some []
  | c :: p => (nibbleTargetOfChar c).bind (fun t => (decodePattern p).map (fun ts => t :: ts))

/-- Embeds the membership test used on the component set: the generator
`c.message_id == message_id and c.component_type == target`. -/
def sameKey (message_id : Nat) (target : NibbleTarget) (c : MessageComponent) : Bool :=
  c.message_id == message_id && c.component_type == target

/-- Embeds one iteration of the loop body of `_create_message_components`:
find an existing component with the same `(message_id, target)` key; if
present remove it (set removal compares only the key) and add the
shift-combined value, otherwise add a fresh component holding the nibble. -/
def insertNibble (message_id : Nat) (components : List MessageComponent)
    (p : NibbleTarget × Nat) : List MessageComponent :=
  match components.find? (sameKey message_id p.1) with
  | some existing =>
      components.filter (fun c => !(sameKey message_id p.1 c)) ++
        [⟨message_id, p.1, (existing.value <<< 4) ||| p.2⟩]
  | none => components ++ [⟨message_id, p.1, p.2⟩]

/-- Embeds `_create_message_components`: fold the position-indexed loop
`for i, nibble in enumerate(pattern_nibbles)` with `target = pattern[i]`
over an initially empty component set. -/
def createMessageComponents (targets : List NibbleTarget) (pattern_nibbles : List Nat)
    (message_id : Nat) : List MessageComponent :=
  (targets.zip pattern_nibbles).foldl (insertNibble message_id) []

/-- Embeds the `while len(nibbles) >= pattern_length` loop of `encode_chunk`,
returning the accumulated components, the next `message_id`, and the nibbles
still in the deque.  The recursion is driven by a fuel argument (each loop
iteration drops at least one nibble, so `nibbles.length` fuel is always
enough); positivity of the pattern length is part of the guard because the
source loop diverges on an empty pattern, which `__init__` rules out. -/
def encodeLoop (targets : List NibbleTarget) (fuel : Nat) (nibbles : List Nat)
    (message_id : Nat) (components : List MessageComponent) :
    List MessageComponent × Nat × List Nat :=
  match fuel with
  | 0 => (components, message_id, nibbles)
  | fuel + 1 =>
    if 0 < targets.length ∧ targets.length ≤ nibbles.length then
      encodeLoop targets fuel (nibbles.drop targets.length) (message_id + 1)
        (components ++ createMessageComponents targets (nibbles.take targets.length) message_id)
    else
      (components, message_id, nibbles)

/-- Component set accumulated by one `encode_chunk` call. -/
def chunkComponents (targets : List NibbleTarget) (nibbles : List Nat) :
    List MessageComponent :=
  (encodeLoop targets nibbles.length nibbles 0 []).1

/-- Nibbles left in the deque after the cycle loop of one `encode_chunk` call. -/
def chunkLeftover (targets : List NibbleTarget) (nibbles : List Nat) : List Nat :=
  (encodeLoop targets nibbles.length nibbles 0 []).2.2

/-- Embeds the completeness check's iteration source `for t in 'cnvtl'`. -/
def requiredTargets : List NibbleTarget :=
  [.CHANNEL, .NOTE, .VELOCITY, .TIMING, .LENGTH]

/-- Embeds `{c for c in components if c.message_id == mid}`. -/
def msgComponents (components : List MessageComponent) (mid : Nat) :
    List MessageComponent :=
  components.filter (fun c => c.message_id == mid)

/-- Embeds the completeness test of `_create_message_pairs_from_components`:
every one of the five targets occurs among the record's component types. -/
def isComplete (components : List MessageComponent) (mid : Nat) : Bool :=
  requiredTargets.all
    (fun t => ((msgComponents components mid).map (fun c => c.component_type)).contains t)

/-- Embeds the lookup `params[target]` in the dict
`{c.component_type: c.value for c in msg_components}`; the `0` default models
the `KeyError` branch, unreachable because the lookup is only performed on
complete records. -/
def paramValue (components : List MessageComponent) (mid : Nat)
    (target : NibbleTarget) : Nat :=
  match (msgComponents components mid).find? (fun c => c.component_type == target) with
  | some c => c.value
  | none => 0

/-- Embeds the `note_durations` dict of `_calculate_note_length`. -/
def note_durations (length_value : Nat) : Option Rat :=
  match length_value with
  | 0 => some 1
  | 1 => some 0.75
  | 2 => some 0.5
  | 3 => some 0.375
  | 4 => some 0.25
  | 5 => some 0.1875
  | 6 => some 0.125
  | 7 => some 0.09375
  | 8 => some 0.0625
  | 9 => some 0.046875
  | 10 => some 0.03125
  | 11 => some 0.0234375
  | 12 => some 0.015625
  | 13 => some 0.01171875
  | 14 => some 0.0078125
  | 15 => some 0.005859375
  | _ => none

/-- Embeds `_calculate_note_length`: `note_durations.get(length_value, 1)`. -/
def calculate_note_length (length_value : Nat) : Rat :=
  (note_durations length_value).getD 1

/-- Embeds the construction of one `(note_on, note_off)` pair for a complete
record in `_create_message_pairs_from_components`. -/
def createMessagePair (components : List MessageComponent) (mid : Nat) :
    MidiMessage × MidiMessage :=
  (⟨min (paramValue components mid .CHANNEL) 15,
    min (paramValue components mid .NOTE) 127,
    min (paramValue components mid .VELOCITY) 127,
    (paramValue components mid .TIMING : Nat)⟩,
   ⟨min (paramValue components mid .CHANNEL) 15,
    min (paramValue components mid .NOTE) 127,
    0,
    calculate_note_length (paramValue components mid .LENGTH)⟩)

/-- Embeds `sorted({c.message_id for c in components})`: the set of record
ids becomes a duplicate-free list, then is sorted ascending. -/
def sortedMessageIds (components : List MessageComponent) : List Nat :=
  List.insertionSort (fun a b => a ≤ b) ((components.map (fun c => c.message_id)).dedup)

/-- Record ids that pass the completeness check, in emission order. -/
def emittedMessageIds (components : List MessageComponent) : List Nat :=
  (sortedMessageIds components).filter (fun mid => isComplete components mid)

/-- Embeds `_create_message_pairs_from_components`: iterate the sorted record
ids, keep the complete ones, and build one message pair for each. -/
def create_message_pairs_from_components (components : List MessageComponent) :
    List (MidiMessage × MidiMessage) :=
  (emittedMessageIds components).map (fun mid => createMessagePair components mid)

/-- Embeds `format(int(n), '04b')`: binary digits, zero-padded on the left to
at least four characters. -/
def format04b (n : Nat) : String :=
  let ds := Nat.toDigits 2 n
  String.mk (List.replicate (4 - ds.length) '0' ++ ds)

/-- Embeds `''.join(format(int(n), '04b') for n in nibbles)`. -/
def remainderBits (nibbles : List Nat) : String :=
  String.join (nibbles.map format04b)

/-- Embeds `MidiEncoder.encode_chunk`.  The returned triple is the pair the
Python method returns plus the final contents of the caller's deque. -/
def MidiEncoder.encode_chunk (e : MidiEncoder) (nibbles : List Nat) :
    Except MidiEncoderError
      ((List (MidiMessage × MidiMessage) × Option Remainder) × List Nat) :=
  if nibbles.isEmpty then
    .error .nibbleProcessingError
  else
    match decodePattern e.pattern with
    | none => .error .invalidPatternChar
    | some targets =>
        let components := chunkComponents targets nibbles
        let leftover := chunkLeftover targets nibbles
        let messages := create_message_pairs_from_components components
        let remainder :=
          if leftover.isEmpty then (none : Option Remainder)
          else some ⟨remainderBits leftover, components.length % e.pattern.length⟩
        .ok ((messages, remainder), leftover)

deriving instance DecidableEq for Except

/-! Helper lemmas about pattern decoding and the encoder entry points. -/

lemma decodePattern_nil : decodePattern [] = some [] := rfl

lemma decodePattern_cons (c : Char) (p : List Char) :
    decodePattern (c :: p) =
      (nibbleTargetOfChar c).bind (fun t => (decodePattern p).map (fun ts => t :: ts)) := rfl

lemma length_of_decodePattern : ∀ {p : List Char} {ts : List NibbleTarget},
    decodePattern p = some ts → ts.length = p.length := by
  intro p
  induction p with
  | nil =>
      intro ts h
      rw [decodePattern_nil] at h
      cases h
      rfl
  | cons c p ih =>
      intro ts h
      rw [decodePattern_cons] at h
      cases hc : nibbleTargetOfChar c <;> rw [hc] at h
      · cases h
      · cases hp : decodePattern p <;> rw [hp] at h
        · cases h
        · cases h
          simp [ih hp]

lemma decodePattern_of_valid : ∀ {p : List Char},
    (∀ c ∈ p, c ∈ ['c', 'n', 'v', 't', 'l']) → ∃ ts, decodePattern p = some ts := by
  intro p
  induction p with
  | nil => exact fun _ => ⟨[], rfl⟩
  | cons c p ih =>
      intro hv
      obtain ⟨ts, hts⟩ := ih (fun d hd => hv d (List.mem_cons_of_mem c hd))
      have hc : c ∈ ['c', 'n', 'v', 't', 'l'] := hv c (List.mem_cons_self c p)
      have : ∃ t, nibbleTargetOfChar c = some t := by
        fin_cases hc <;> exact ⟨_, rfl⟩
      obtain ⟨t, ht⟩ := this
      exact ⟨t :: ts, by rw [decodePattern_cons, ht, hts]; rfl⟩

lemma init_ok_iff {p : List Char} {e : MidiEncoder} :
    MidiEncoder.init p = .ok e ↔
      (p ≠ [] ∧ (∀ c ∈ p, c ∈ ['c', 'n', 'v', 't', 'l'])) ∧ e = ⟨p⟩ := by
  unfold MidiEncoder.init
  split
  next hcond =>
    simp only [Bool.or_eq_true, Bool.not_eq_true', List.all_eq_false, List.isEmpty_iff] at hcond
    constructor
    · intro h
      cases h
    · rintro ⟨⟨hne, hall⟩, rfl⟩
      rcases hcond with h | ⟨x, hx, hnx⟩
      · exact absurd h hne
      · exact absurd (by simpa using hall x hx) (by simpa using hnx)
  next hcond =>
    simp only [Bool.or_eq_true, Bool.not_eq_true', List.all_eq_false, List.isEmpty_iff,
      not_or, not_exists] at hcond
    push_neg at hcond
    constructor
    · intro h
      cases h
      refine ⟨⟨hcond.1, fun c hc => ?_⟩, rfl⟩
      have := hcond.2 c hc
      simpa using this
    · rintro ⟨-, rfl⟩
      rfl

lemma encode_chunk_ok (e : MidiEncoder) (nibbles : List Nat) (targets : List NibbleTarget)
    (h : decodePattern e.pattern = some targets) (hne : nibbles ≠ []) :
    e.encode_chunk nibbles =
      .ok ((create_message_pairs_from_components (chunkComponents targets nibbles),
            if (chunkLeftover targets nibbles).isEmpty then none
            else some ⟨remainderBits (chunkLeftover targets nibbles),
                       (chunkComponents targets nibbles).length % e.pattern.length⟩),
           chunkLeftover targets nibbles) := by
  unfold MidiEncoder.encode_chunk
  rw [if_neg (by simpa [List.isEmpty_iff] using hne), h]

lemma encodeLoop_leftover (targets : List NibbleTarget) (hpos : 0 < targets.length) :
    ∀ (fuel : Nat) (nibbles : List Nat) (mid : Nat) (comps : List MessageComponent),
      nibbles.length ≤ fuel →
      (encodeLoop targets fuel nibbles mid comps).2.2 =
        nibbles.drop (targets.length * (nibbles.length / targets.length)) := by
  intro fuel
  induction fuel with
  | zero =>
      intro nibbles mid comps hle
      have : nibbles = [] := List.length_eq_zero.mp (Nat.le_zero.mp hle)
      subst this
      simp [encodeLoop]
  | succ fuel ih =>
      intro nibbles mid comps hle
      rw [encodeLoop]
      by_cases hguard : targets.length ≤ nibbles.length
      · rw [if_pos ⟨hpos, hguard⟩]
        rw [ih _ _ _ (by simp [List.length_drop]; omega)]
        rw [List.drop_drop, List.length_drop]
        congr 1
        have hdiv : nibbles.length / targets.length =
            (nibbles.length - targets.length) / targets.length + 1 := by
          rw [Nat.div_eq nibbles.length targets.length, if_pos ⟨hpos, hguard⟩]
        rw [hdiv]
        ring
      · rw [if_neg (by tauto)]
        rw [Nat.div_eq_of_lt (by omega)]
        simp

/-- C1: for the Encoder constructed with pattern "cnvtl", assembling the
nibble sequence [0,3,12,4,0,1] returns exactly one event pair — start event
(channel 0, note 3, velocity 12, time 4) and end event (channel 0, note 3,
velocity 0, time duration(0) = 1) — together with a Remainder whose bits are
"0001" and whose pattern_position is 0. -/
theorem claim_C1 :
    MidiEncoder.init ['c', 'n', 'v', 't', 'l'] = .ok ⟨['c', 'n', 'v', 't', 'l']⟩ ∧
    (MidiEncoder.mk ['c', 'n', 'v', 't', 'l']).encode_chunk [0, 3, 12, 4, 0, 1] =
      .ok (([(⟨0, 3, 12, ((4 : Nat) : Rat)⟩, ⟨0, 3, 0, (1 : Rat)⟩)],
            some ⟨"0001", 0⟩), [1]) :=
  ⟨rfl, rfl⟩

/-- C6: encoder construction raises PatternError precisely when the candidate
pattern is empty or contains a symbol outside the alphabet c,n,v,t,l; for
every non-empty sequence over that alphabet, construction succeeds and the
constructed Encoder's pattern equals the input. -/
theorem claim_C6 : ∀ p : List Char,
    (MidiEncoder.init p = .error .patternError ↔
      (p = [] ∨ ∃ c ∈ p, c ∉ ['c', 'n', 'v', 't', 'l'])) ∧
    ((p ≠ [] ∧ ∀ c ∈ p, c ∈ ['c', 'n', 'v', 't', 'l']) →
      MidiEncoder.init p = .ok ⟨p⟩) := by
  intro p
  constructor
  · unfold MidiEncoder.init
    split
    next hcond =>
      simp only [Bool.or_eq_true, Bool.not_eq_true', List.all_eq_false,
        List.isEmpty_iff] at hcond
      constructor
      · intro _
        rcases hcond with h | ⟨x, hx, hnx⟩
        · exact Or.inl h
        · exact Or.inr ⟨x, hx, fun hmem => by simp at hnx; simp at hmem; tauto⟩
      · intro _
        rfl
    next hcond =>
      simp only [Bool.or_eq_true, Bool.not_eq_true', List.all_eq_false,
        List.isEmpty_iff, not_or, not_exists] at hcond
      push_neg at hcond
      constructor
      · intro h
        cases h
      · rintro (h | ⟨x, hx, hnx⟩)
        · exact absurd h hcond.1
        · exact absurd (by simpa using hcond.2 x hx) hnx
  · intro ⟨hne, hall⟩
    exact init_ok_iff.mpr ⟨⟨hne, hall⟩, rfl⟩

/-- C6 witness: construction with the concrete valid pattern "cnvtl"
succeeds and stores that pattern. -/
theorem claim_C6_witness :
    MidiEncoder.init ['c', 'n', 'v', 't', 'l'] = .ok ⟨['c', 'n', 'v', 't', 'l']⟩ :=
  (claim_C6 ['c', 'n', 'v', 't', 'l']).2 ⟨by decide, by decide⟩

/-- C7: the duration lookup maps the codes 0 through 15 exactly to 1, 0.75,
0.5, 0.375, 0.25, 0.1875, 0.125, 0.09375, 0.0625, 0.046875, 0.03125,
0.0234375, 0.015625, 0.01171875, 0.0078125, 0.005859375, this sequence is
strictly decreasing, and every code above 15 maps to the code-0 duration 1. -/
theorem claim_C7 :
    (calculate_note_length 0 = 1 ∧ calculate_note_length 1 = 0.75 ∧
     calculate_note_length 2 = 0.5 ∧ calculate_note_length 3 = 0.375 ∧
     calculate_note_length 4 = 0.25 ∧ calculate_note_length 5 = 0.1875 ∧
     calculate_note_length 6 = 0.125 ∧ calculate_note_length 7 = 0.09375 ∧
     calculate_note_length 8 = 0.0625 ∧ calculate_note_length 9 = 0.046875 ∧
     calculate_note_length 10 = 0.03125 ∧ calculate_note_length 11 = 0.0234375 ∧
     calculate_note_length 12 = 0.015625 ∧ calculate_note_length 13 = 0.01171875 ∧
     calculate_note_length 14 = 0.0078125 ∧ calculate_note_length 15 = 0.005859375) ∧
    (∀ i : Nat, i < 15 → calculate_note_length (i + 1) < calculate_note_length i) ∧
    (∀ n : Nat, 15 < n → calculate_note_length n = 1) := by
  refine ⟨⟨rfl, rfl, rfl, rfl, rfl, rfl, rfl, rfl, rfl, rfl, rfl, rfl, rfl, rfl, rfl, rfl⟩,
    ?_, ?_⟩
  · intro i hi
    interval_cases i <;> norm_num [calculate_note_length, note_durations]
  · intro n hn
    unfold calculate_note_length note_durations
    split
    all_goals first | rfl | omega

/-- C7 witness: the strict-decrease part at code 0 and the fallback at the
concrete out-of-range code 16. -/
theorem claim_C7_witness :
    calculate_note_length 1 < calculate_note_length 0 ∧ calculate_note_length 16 = 1 :=
  ⟨claim_C7.2.1 0 (by decide), claim_C7.2.2 16 (by decide)⟩

/-- C5: assembly fails with NibbleProcessingError exactly on an empty nibble
sequence — the check precedes any cycle and is independent of the pattern —
and for every constructed encoder and non-empty input the call returns
normally with an event list and optional Remainder. -/
theorem claim_C5 :
    (∀ e : MidiEncoder, e.encode_chunk [] = .error .nibbleProcessingError) ∧
    (∀ (p : List Char) (e : MidiEncoder), MidiEncoder.init p = .ok e →
      ∀ nibbles : List Nat, nibbles ≠ [] →
        ∃ msgs rem rest, e.encode_chunk nibbles = .ok ((msgs, rem), rest)) := by
  constructor
  · intro e
    rfl
  · intro p e hinit nibbles hne
    obtain ⟨⟨-, hall⟩, rfl⟩ := init_ok_iff.mp hinit
    obtain ⟨targets, hts⟩ := decodePattern_of_valid hall
    exact ⟨_, _, _, encode_chunk_ok ⟨p⟩ nibbles targets hts hne⟩

/-- C5 witness: the non-error branch at the concrete encoder "cnvtl" and the
one-element input [7]. -/
theorem claim_C5_witness :
    ∃ msgs rem rest,
      (MidiEncoder.mk ['c', 'n', 'v', 't', 'l']).encode_chunk [7] =
        .ok ((msgs, rem), rest) :=
  claim_C5.2 ['c', 'n', 'v', 't', 'l'] ⟨['c', 'n', 'v', 't', 'l']⟩ (by decide) [7] (by decide)

lemma sameKey_self (r : Nat) (t : NibbleTarget) (v : Nat) :
    sameKey r t ⟨r, t, v⟩ = true := by
  simp [sameKey]

lemma find?_insertNibble (r : Nat) (t : NibbleTarget) (n : Nat)
    (comps : List MessageComponent) :
    (insertNibble r comps (t, n)).find? (sameKey r t) =
      some ⟨r, t, match comps.find? (sameKey r t) with
                  | some existing => (existing.value <<< 4) ||| n
                  | none => n⟩ := by
  unfold insertNibble
  cases h : comps.find? (sameKey r t) with
  | some existing =>
      rw [List.find?_append]
      have h1 : (comps.filter (fun c => !(sameKey r t c))).find? (sameKey r t) = none := by
        rw [List.find?_eq_none]
        intro x hx
        have hx2 := (List.mem_filter.mp hx).2
        simp only [Bool.not_eq_true'] at hx2
        simp [hx2]
      rw [h1]
      simp [List.find?, sameKey_self]
  | none =>
      rw [List.find?_append]
      have h1 : comps.find? (sameKey r t) = none := h
      rw [h1]
      simp [List.find?, sameKey_self]

lemma insertNibble_value_bound (r : Nat) (t : NibbleTarget) (n : Nat)
    (comps : List MessageComponent) (f : NibbleTarget → Nat)
    (hf : ∀ c ∈ comps, c.value < 2 ^ (4 * f c.component_type)) (hn : n < 16) :
    ∀ c ∈ insertNibble r comps (t, n),
      c.value < 2 ^ (4 * (if c.component_type = t then f c.component_type + 1
                          else f c.component_type)) := by
  intro c hc
  have hmono : ∀ c' : MessageComponent, c'.value < 2 ^ (4 * f c'.component_type) →
      c'.value < 2 ^ (4 * (if c'.component_type = t then f c'.component_type + 1
                           else f c'.component_type)) := by
    intro c' h
    split
    · exact lt_of_lt_of_le h (Nat.pow_le_pow_right (by norm_num) (by omega))
    · exact h
  unfold insertNibble at hc
  cases h : comps.find? (sameKey r t) <;> rw [h] at hc
  · rcases List.mem_append.mp hc with hmem | hnew
    · exact hmono c (hf c hmem)
    · simp only [List.mem_singleton] at hnew
      subst hnew
      simp only [if_pos rfl]
      calc (n : Nat) < 16 := hn
        _ = 2 ^ (4 * 1) := by norm_num
        _ ≤ 2 ^ (4 * (f t + 1)) := Nat.pow_le_pow_right (by norm_num) (by omega)
  · next existing =>
      rcases List.mem_append.mp hc with hmem | hnew
      · exact hmono c (hf c (List.mem_of_mem_filter hmem))
      · simp only [List.mem_singleton] at hnew
        subst hnew
        simp only [if_pos rfl]
        have hex : existing ∈ comps := List.mem_of_find?_eq_some h
        have hkey : sameKey r t existing = true := List.find?_some h
        have htype : existing.component_type = t := by
          simp only [sameKey, Bool.and_eq_true, beq_iff_eq] at hkey
          exact hkey.2
        have hb : existing.value < 2 ^ (4 * f t) := htype ▸ hf existing hex
        have hn4 : n < 2 ^ 4 := by norm_num at hn ⊢; exact hn
        have hlt := Nat.append_lt hn4 hb
        calc (existing.value <<< 4) ||| n < 2 ^ (4 + 4 * f t) := hlt
          _ = 2 ^ (4 * (f t + 1)) := by ring_nf

lemma foldl_insert_value_bound (r : Nat) :
    ∀ (pairs : List (NibbleTarget × Nat)) (comps : List MessageComponent)
      (f : NibbleTarget → Nat),
      (∀ c ∈ comps, c.value < 2 ^ (4 * f c.component_type)) →
      (∀ p ∈ pairs, p.2 < 16) →
      ∀ c ∈ pairs.foldl (insertNibble r) comps,
        c.value < 2 ^ (4 * (f c.component_type +
          pairs.countP (fun p => p.1 == c.component_type))) := by
  intro pairs
  induction pairs with
  | nil =>
      intro comps f hf _ c hc
      simpa using hf c hc
  | cons p rest ih =>
      intro comps f hf hp c hc
      obtain ⟨t, n⟩ := p
      simp only [List.foldl_cons] at hc
      have step := insertNibble_value_bound r t n comps f hf (hp (t, n) (by simp))
      have hrec := ih (insertNibble r comps (t, n))
        (fun t' => if t' = t then f t' + 1 else f t') step
        (fun q hq => hp q (by simp [hq])) c hc
      have hexp : (if c.component_type = t then f c.component_type + 1
            else f c.component_type) + rest.countP (fun p => p.1 == c.component_type) =
          f c.component_type +
            ((t, n) :: rest).countP (fun p => p.1 == c.component_type) := by
      

        rw [List.countP_cons]
        by_cases hct : c.component_type = t
        · simp only [hct, if_pos rfl, beq_self_eq_true, if_true]
          omega
        · have : ((t, n).1 == c.component_type) = false := by
            simp [Ne.symm hct]
          simp [hct, this]
      rw [← hexp]
      exact hrec

lemma createMessageComponents_value_bound (targets : List NibbleTarget)
    (nibbles : List Nat) (r : Nat) (hlen : targets.length = nibbles.length)
    (h16 : ∀ n ∈ nibbles, n < 16) :
    ∀ c ∈ createMessageComponents targets nibbles r,
      c.value < 2 ^ (4 * targets.count c.component_type) := by
  intro c hc
  have := foldl_insert_value_bound r (targets.zip nibbles) [] (fun _ => 0)
    (by simp) (fun p hp => h16 p.2 (List.of_mem_zip hp).2) c hc
  have hcnt : (targets.zip nibbles).countP (fun p => p.1 == c.component_type) =
      targets.count c.component_type := by
    rw [List.count]
    conv_rhs => rw [← List.map_fst_zip targets nibbles (le_of_eq hlen)]
    rw [List.countP_map]
    rfl
  rw [hcnt] at this
  simpa using this

lemma createMessageComponents_value_le_15 (targets : List NibbleTarget)
    (nibbles : List Nat) (r : Nat) (hlen : targets.length = nibbles.length)
    (hnodup : targets.Nodup) (h16 : ∀ n ∈ nibbles, n < 16) :
    ∀ c ∈ createMessageComponents targets nibbles r, c.value ≤ 15 := by
  intro c hc
  have hb := createMessageComponents_value_bound targets nibbles r hlen h16 c hc
  have hcnt : targets.count c.component_type ≤ 1 :=
    List.nodup_iff_count_le_one.mp hnodup c.component_type
  have : 2 ^ (4 * targets.count c.component_type) ≤ 16 := by
    interval_cases h : targets.count c.component_type <;> norm_num
  omega

/-- C2: within one cycle, processing a nibble for key (RecordId, pattern[i])
replaces an existing Component's value by (old <<< 4) ||| nibble and creates
a missing Component with value equal to the nibble; consequently a symbol
occurring k times in the cycle yields a merged value below 2^(4k), and a
pattern with pairwise-distinct symbols yields field values in [0, 15]. -/
theorem claim_C2 :
    (∀ (r : Nat) (t : NibbleTarget) (n : Nat) (comps : List MessageComponent),
      (insertNibble r comps (t, n)).find? (sameKey r t) =
        some ⟨r, t, match comps.find? (sameKey r t) with
                    | some existing => (existing.value <<< 4) ||| n
                    | none => n⟩) ∧
    (∀ (targets : List NibbleTarget) (nibbles : List Nat) (r : Nat),
      targets.length = nibbles.length → (∀ n ∈ nibbles, n < 16) →
      ∀ c ∈ createMessageComponents targets nibbles r,
        c.value < 2 ^ (4 * targets.count c.component_type)) ∧
    (∀ (targets : List NibbleTarget) (nibbles : List Nat) (r : Nat),
      targets.length = nibbles.length → targets.Nodup → (∀ n ∈ nibbles, n < 16) →
      ∀ c ∈ createMessageComponents targets nibbles r, c.value ≤ 15) :=
  ⟨fun r t n comps => find?_insertNibble r t n comps,
   createMessageComponents_value_bound,
   createMessageComponents_value_le_15⟩

/-- C2 witness: the merge rule on the concrete "nn" cycle (3 then 12 gives
60), the width bound on that cycle, and the [0,15] bound on a "cnvtl" cycle. -/
theorem claim_C2_witness :
    (insertNibble 0 [⟨0, .NOTE, 3⟩] (.NOTE, 12)).find? (sameKey 0 .NOTE) =
      some ⟨0, .NOTE, 60⟩ ∧
    (∀ c ∈ createMessageComponents [.NOTE, .NOTE] [3, 12] 0,
      c.value < 2 ^ (4 * [NibbleTarget.NOTE, .NOTE].count c.component_type)) ∧
    (∀ c ∈ createMessageComponents [.CHANNEL, .NOTE, .VELOCITY, .TIMING, .LENGTH]
        [0, 3, 12, 4, 0] 0, c.value ≤ 15) :=
  ⟨claim_C2.1 0 .NOTE 12 [⟨0, .NOTE, 3⟩],
   claim_C2.2.1 [.NOTE, .NOTE] [3, 12] 0 (by decide) (by decide),
   claim_C2.2.2 [.CHANNEL, .NOTE, .VELOCITY, .TIMING, .LENGTH] [0, 3, 12, 4, 0] 0
     (by decide) (by decide) (by decide)⟩

/-- C3: a RecordId whose components miss one of the five field kinds is
silently dropped at finalization — it contributes no event pair — and in
particular pattern "nn" on nibbles [3,12] merges the single NOTE component to
value 60 and the call returns an empty event list, no Remainder, and no
error. -/
theorem claim_C3 :
    (∀ (components : List MessageComponent) (mid : Nat),
      isComplete components mid = false → mid ∉ emittedMessageIds components) ∧
    (MidiEncoder.mk ['n', 'n']).encode_chunk [3, 12] = .ok (([], none), []) ∧
    chunkComponents [.NOTE, .NOTE] [3, 12] = [⟨0, .NOTE, 60⟩] := by
  refine ⟨?_, by decide, by decide⟩
  intro components mid h hmem
  have := (List.mem_filter.mp hmem).2
  rw [h] at this
  cases this

/-- C3 witness: RecordId 0 of the "nn" example is incomplete, so it is
absent from the emitted ids. -/
theorem claim_C3_witness :
    (0 : Nat) ∉ emittedMessageIds [⟨0, .NOTE, 60⟩] :=
  claim_C3.1 [⟨0, .NOTE, 60⟩] 0 (by decide)

lemma encode_chunk_ok_inv (e : MidiEncoder) (nibbles : List Nat)
    (targets : List NibbleTarget) (msgs : List (MidiMessage × MidiMessage))
    (rem : Option Remainder) (rest : List Nat)
    (hdec : decodePattern e.pattern = some targets)
    (hok : e.encode_chunk nibbles = .ok ((msgs, rem), rest)) :
    msgs = create_message_pairs_from_components (chunkComponents targets nibbles) ∧
    rest = chunkLeftover targets nibbles ∧
    rem = (if (chunkLeftover targets nibbles).isEmpty then none
           else some ⟨remainderBits (chunkLeftover targets nibbles),
                      (chunkComponents targets nibbles).length % e.pattern.length⟩) := by
  have hne : nibbles ≠ [] := by
    intro h
    subst h
    have : e.encode_chunk [] = .error .nibbleProcessingError := rfl
    rw [this] at hok
    cases hok
  have h := (encode_chunk_ok e nibbles targets hdec hne).symm.trans hok
  injection h with h
  injection h with h1 h2
  injection h1 with h1a h1b
  exact ⟨h1a.symm, h2.symm, h1b.symm⟩

/-- C4: every emitted pair comes from a complete record, its start event
carries the saturating-clamped channel (max 15), note and velocity (max 127)
and the unclamped TIMING value as time, and its end event carries the same
clamped channel and note, velocity exactly 0, and the duration of the
unclamped LENGTH value as time. -/
theorem claim_C4 : ∀ (e : MidiEncoder) (nibbles : List Nat)
    (targets : List NibbleTarget) (msgs : List (MidiMessage × MidiMessage))
    (rem : Option Remainder) (rest : List Nat),
    decodePattern e.pattern = some targets →
    e.encode_chunk nibbles = .ok ((msgs, rem), rest) →
    ∀ pr ∈ msgs, ∃ mid,
      isComplete (chunkComponents targets nibbles) mid = true ∧
      pr.1.channel = min (paramValue (chunkComponents targets nibbles) mid .CHANNEL) 15 ∧
      pr.1.note = min (paramValue (chunkComponents targets nibbles) mid .NOTE) 127 ∧
      pr.1.velocity = min (paramValue (chunkComponents targets nibbles) mid .VELOCITY) 127 ∧
      pr.1.time = (paramValue (chunkComponents targets nibbles) mid .TIMING : Rat) ∧
      pr.2.channel = pr.1.channel ∧ pr.2.note = pr.1.note ∧ pr.2.velocity = 0 ∧
      pr.2.time = calculate_note_length (paramValue (chunkComponents targets nibbles) mid .LENGTH) ∧
      pr.1.channel ≤ 15 ∧ pr.1.note ≤ 127 ∧ pr.1.velocity ≤ 127 := by
  intro e nibbles targets msgs rem rest hdec hok pr hpr
  obtain ⟨hmsgs, -, -⟩ := encode_chunk_ok_inv e nibbles targets msgs rem rest hdec hok
  rw [hmsgs] at hpr
  unfold create_message_pairs_from_components at hpr
  obtain ⟨mid, hmem, hpr⟩ := List.mem_map.mp hpr
  have hcomplete : isComplete (chunkComponents targets nibbles) mid = true :=
    (List.mem_filter.mp hmem).2
  subst hpr
  exact ⟨mid, hcomplete, rfl, rfl, rfl, rfl, rfl, rfl, rfl, rfl,
    min_le_right _ _, min_le_right _ _, min_le_right _ _⟩

/-- C4 witness: the single pair of the "cnvtl" example instantiates the
clamped/unclamped field description. -/
theorem claim_C4_witness :
    ∃ mid,
      isComplete (chunkComponents [.CHANNEL, .NOTE, .VELOCITY, .TIMING, .LENGTH]
        [0, 3, 12, 4, 0, 1]) mid = true ∧
      (0 : Nat) = min (paramValue (chunkComponents
        [.CHANNEL, .NOTE, .VELOCITY, .TIMING, .LENGTH] [0, 3, 12, 4, 0, 1]) mid .CHANNEL) 15 ∧
      (3 : Nat) = min (paramValue (chunkComponents
        [.CHANNEL, .NOTE, .VELOCITY, .TIMING, .LENGTH] [0, 3, 12, 4, 0, 1]) mid .NOTE) 127 ∧
      (12 : Nat) = min (paramValue (chunkComponents
        [.CHANNEL, .NOTE, .VELOCITY, .TIMING, .LENGTH] [0, 3, 12, 4, 0, 1]) mid .VELOCITY) 127 ∧
      ((4 : Nat) : Rat) = (paramValue (chunkComponents
        [.CHANNEL, .NOTE, .VELOCITY, .TIMING, .LENGTH] [0, 3, 12, 4, 0, 1]) mid .TIMING : Rat) ∧
      (0 : Nat) = 0 ∧ (3 : Nat) = 3 ∧ (0 : Nat) = 0 ∧
      (1 : Rat) = calculate_note_length (paramValue (chunkComponents
        [.CHANNEL, .NOTE, .VELOCITY, .TIMING, .LENGTH] [0, 3, 12, 4, 0, 1]) mid .LENGTH) ∧
      (0 : Nat) ≤ 15 ∧ (3 : Nat) ≤ 127 ∧ (12 : Nat) ≤ 127 :=
  claim_C4 (MidiEncoder.mk ['c', 'n', 'v', 't', 'l']) [0, 3, 12, 4, 0, 1]
    [.CHANNEL, .NOTE, .VELOCITY, .TIMING, .LENGTH]
    [(⟨0, 3, 12, ((4 : Nat) : Rat)⟩, ⟨0, 3, 0, (1 : Rat)⟩)] (some ⟨"0001", 0⟩) [1]
    rfl rfl (⟨0, 3, 12, ((4 : Nat) : Rat)⟩, ⟨0, 3, 0, (1 : Rat)⟩) (by simp)

lemma emittedMessageIds_pairwise_lt (components : List MessageComponent) :
    List.Pairwise (fun a b => a < b) (emittedMessageIds components) := by
  have hsorted : List.Sorted (fun a b : Nat => a ≤ b) (sortedMessageIds components) :=
    List.sorted_insertionSort _ _
  have hnodup : (sortedMessageIds components).Nodup :=
    (List.perm_insertionSort (fun a b : Nat => a ≤ b) _).symm.nodup
      (List.nodup_dedup _)
  have hpair : List.Pairwise (fun a b : Nat => a < b) (sortedMessageIds components) :=
    (hsorted.and hnodup).imp (fun h => lt_of_le_of_ne h.1 h.2)
  exact hpair.sublist (List.filter_sublist _)

/-- C8: the event-pair list returned by one assembly call is the image of the
emitted RecordIds, which are pairwise strictly ascending, so pairs appear in
strictly ascending RecordId order. -/
theorem claim_C8 : ∀ (e : MidiEncoder) (nibbles : List Nat)
    (targets : List NibbleTarget) (msgs : List (MidiMessage × MidiMessage))
    (rem : Option Remainder) (rest : List Nat),
    decodePattern e.pattern = some targets →
    e.encode_chunk nibbles = .ok ((msgs, rem), rest) →
    msgs = (emittedMessageIds (chunkComponents targets nibbles)).map
      (fun mid => createMessagePair (chunkComponents targets nibbles) mid) ∧
    List.Pairwise (fun a b => a < b)
      (emittedMessageIds (chunkComponents targets nibbles)) := by
  intro e nibbles targets msgs rem rest hdec hok
  obtain ⟨hmsgs, -, -⟩ := encode_chunk_ok_inv e nibbles targets msgs rem rest hdec hok
  exact ⟨hmsgs, emittedMessageIds_pairwise_lt _⟩

/-- C8 witness: the ordering statement at the concrete two-record "cnvtl"
input. -/
theorem claim_C8_witness :
    [(⟨0, 3, 12, ((4 : Nat) : Rat)⟩, (⟨0, 3, 0, (1 : Rat)⟩ : MidiMessage)),
     (⟨1, 3, 14, ((4 : Nat) : Rat)⟩, (⟨1, 3, 0, (1 : Rat)⟩ : MidiMessage))] =
      (emittedMessageIds (chunkComponents [.CHANNEL, .NOTE, .VELOCITY, .TIMING, .LENGTH]
        [0, 3, 12, 4, 0, 1, 3, 14, 4, 0])).map
        (fun mid => createMessagePair (chunkComponents
          [.CHANNEL, .NOTE, .VELOCITY, .TIMING, .LENGTH]
          [0, 3, 12, 4, 0, 1, 3, 14, 4, 0]) mid) ∧
    List.Pairwise (fun a b => a < b)
      (emittedMessageIds (chunkComponents [.CHANNEL, .NOTE, .VELOCITY, .TIMING, .LENGTH]
        [0, 3, 12, 4, 0, 1, 3, 14, 4, 0])) :=
  claim_C8 (MidiEncoder.mk ['c', 'n', 'v', 't', 'l']) [0, 3, 12, 4, 0, 1, 3, 14, 4, 0]
    [.CHANNEL, .NOTE, .VELOCITY, .TIMING, .LENGTH]
    [(⟨0, 3, 12, ((4 : Nat) : Rat)⟩, ⟨0, 3, 0, (1 : Rat)⟩),
     (⟨1, 3, 14, ((4 : Nat) : Rat)⟩, ⟨1, 3, 0, (1 : Rat)⟩)] none []
    rfl rfl

/-- C9 counterexample: on pattern "cnvtl" with nibbles [0,3,12,4,0,1] the
call returns with the leftover nibble 1 still in the caller's deque, so the
supplied sequence is not fully drained. -/
theorem claim_C9_counterexample :
    ¬ ∀ (out : List (MidiMessage × MidiMessage) × Option Remainder) (rest : List Nat),
        (MidiEncoder.mk ['c', 'n', 'v', 't', 'l']).encode_chunk [0, 3, 12, 4, 0, 1] =
          .ok (out, rest) → rest = [] := by
  intro h
  have := h ([(⟨0, 3, 12, ((4 : Nat) : Rat)⟩, ⟨0, 3, 0, (1 : Rat)⟩)],
    some ⟨"0001", 0⟩) [1] rfl
  exact absurd this (by decide)

/-- C9 (amended): after a normal return the full cycles have been drained
from the supplied sequence while the leftover nibbles (fewer than one pattern
length) remain in it, and exactly those nibbles are conveyed through the
returned Remainder; the Encoder itself (only its immutable pattern) carries
no Component, RecordId, or nibble state across calls. -/
theorem claim_C9_amended : ∀ (p : List Char) (e : MidiEncoder),
    MidiEncoder.init p = .ok e →
    ∀ (nibbles : List Nat) (targets : List NibbleTarget)
      (msgs : List (MidiMessage × MidiMessage)) (rem : Option Remainder)
      (rest : List Nat),
      decodePattern e.pattern = some targets →
      e.encode_chunk nibbles = .ok ((msgs, rem), rest) →
      rest = nibbles.drop (targets.length * (nibbles.length / targets.length)) ∧
      rest.length < targets.length ∧
      (rem = none ↔ rest = []) ∧
      (∀ r, rem = some r → r.bits = remainderBits rest) := by
  intro p e hinit nibbles targets msgs rem rest hdec hok
  obtain ⟨⟨hne, -⟩, rfl⟩ := init_ok_iff.mp hinit
  have hlen : targets.length = p.length := length_of_decodePattern hdec
  have hpos : 0 < targets.length := by
    rw [hlen]
    exact List.length_pos.mpr hne
  obtain ⟨-, hrest, hrem⟩ := encode_chunk_ok_inv _ nibbles targets msgs rem rest hdec hok
  have hleft : chunkLeftover targets nibbles =
      nibbles.drop (targets.length * (nibbles.length / targets.length)) :=
    encodeLoop_leftover targets hpos nibbles.length nibbles 0 [] le_rfl
  subst hrest
  refine ⟨hleft, ?_, ?_, ?_⟩
  · rw [hleft, List.length_drop]
    have hdm := Nat.div_add_mod nibbles.length targets.length
    have hmlt := Nat.mod_lt nibbles.length hpos
    omega
  · rw [hrem]
    split
    next h => simp [List.isEmpty_iff.mp h]
    next h =>
      simp only [List.isEmpty_iff] at h
      simp [h]
  · intro r hr
    rw [hrem] at hr
    split at hr
    · cases hr
    · cases hr
      rfl

/-- C9 amended-claim witness: the leftover characterization at the concrete
"cnvtl" example. -/
theorem claim_C9_amended_witness :
    ([1] : List Nat) = [0, 3, 12, 4, 0, 1].drop
      ([NibbleTarget.CHANNEL, .NOTE, .VELOCITY, .TIMING, .LENGTH].length *
        (([0, 3, 12, 4, 0, 1] : List Nat).length /
          [NibbleTarget.CHANNEL, .NOTE, .VELOCITY, .TIMING, .LENGTH].length)) ∧
    ([1] : List Nat).length <
      [NibbleTarget.CHANNEL, .NOTE, .VELOCITY, .TIMING, .LENGTH].length ∧
    ((some ⟨"0001", 0⟩ : Option Remainder) = none ↔ ([1] : List Nat) = []) ∧
    (∀ r, (some ⟨"0001", 0⟩ : Option Remainder) = some r →
      r.bits = remainderBits [1]) :=
  claim_C9_amended ['c', 'n', 'v', 't', 'l'] ⟨['c', 'n', 'v', 't', 'l']⟩ (by decide)
    [0, 3, 12, 4, 0, 1] [.CHANNEL, .NOTE, .VELOCITY, .TIMING, .LENGTH]
    [(⟨0, 3, 12, ((4 : Nat) : Rat)⟩, ⟨0, 3, 0, (1 : Rat)⟩)] (some ⟨"0001", 0⟩) [1]
    rfl rfl

/-- Keys under which the Python set compares `MessageComponent`s. -/
def componentKeys (components : List MessageComponent) : List (Nat × NibbleTarget) :=
  components.map (fun c => (c.message_id, c.component_type))

lemma foldl_insert_message_id (r : Nat) :
    ∀ (pairs : List (NibbleTarget × Nat)) (comps : List MessageComponent),
      (∀ c ∈ comps, c.message_id = r) →
      ∀ c ∈ pairs.foldl (insertNibble r) comps, c.message_id = r := by
  intro pairs
  induction pairs with
  | nil => intro comps h c hc; exact h c hc
  | cons p rest ih =>
      intro comps h c hc
      simp only [List.foldl_cons] at hc
      refine ih (insertNibble r comps p) ?_ c hc
      intro c' hc'
      unfold insertNibble at hc'
      cases hfind : comps.find? (sameKey r p.1) <;> rw [hfind] at hc'
      · rcases List.mem_append.mp hc' with hm | hm
        · exact h c' hm
        · simp only [List.mem_singleton] at hm
          subst hm
          rfl
      · rcases List.mem_append.mp hc' with hm | hm
        · exact h c' (List.mem_of_mem_filter hm)
        · simp only [List.mem_singleton] at hm
          subst hm
          rfl

lemma createMessageComponents_message_id (targets : List NibbleTarget)
    (nibbles : List Nat) (r : Nat) :
    ∀ c ∈ createMessageComponents targets nibbles r, c.message_id = r :=
  foldl_insert_message_id r (targets.zip nibbles) [] (by simp)

lemma insertNibble_keys_nodup (r : Nat) (p : NibbleTarget × Nat)
    (comps : List MessageComponent) (h : (componentKeys comps).Nodup) :
    (componentKeys (insertNibble r comps p)).Nodup := by
  unfold insertNibble
  cases hfind : comps.find? (sameKey r p.1)
  · rw [componentKeys, List.map_append]
    rw [List.nodup_append]
    refine ⟨h, List.nodup_singleton _, ?_⟩
    intro a ha hb
    simp only [List.map_cons, List.map_nil, List.mem_singleton] at hb
    subst hb
    obtain ⟨c, hc, hkey⟩ := List.mem_map.mp ha
    have := List.find?_eq_none.mp hfind c hc
    apply this
    simp only [sameKey, Bool.and_eq_true, beq_iff_eq]
    exact ⟨congrArg Prod.fst hkey, congrArg Prod.snd hkey⟩
  · rw [componentKeys, List.map_append]
    rw [List.nodup_append]
    refine ⟨?_, List.nodup_singleton _, ?_⟩
    · exact ((List.filter_sublist comps).map _).nodup h
    · intro a ha hb
      simp only [List.map_cons, List.map_nil, List.mem_singleton] at hb
      subst hb
      obtain ⟨c, hc, hkey⟩ := List.mem_map.mp ha
      have hcf := (List.mem_filter.mp hc).2
      simp only [Bool.not_eq_true'] at hcf
      have : sameKey r p.1 c = true := by
        simp only [sameKey, Bool.and_eq_true, beq_iff_eq]
        exact ⟨congrArg Prod.fst hkey, congrArg Prod.snd hkey⟩
      rw [hcf] at this
      cases this

lemma createMessageComponents_keys_nodup (targets : List NibbleTarget)
    (nibbles : List Nat) (r : Nat) :
    (componentKeys (createMessageComponents targets nibbles r)).Nodup := by
  unfold createMessageComponents
  generalize (targets.zip nibbles) = pairs
  have : ∀ (ps : List (NibbleTarget × Nat)) (comps : List MessageComponent),
      (componentKeys comps).Nodup →
      (componentKeys (ps.foldl (insertNibble r) comps)).Nodup := by
    intro ps
    induction ps with
    | nil => intro comps h; exact h
    | cons p rest ih =>
        intro comps h
        exact ih (insertNibble r comps p) (insertNibble_keys_nodup r p comps h)
  exact this pairs [] (by simp [componentKeys])

lemma encodeLoop_keys_nodup (targets : List NibbleTarget) :
    ∀ (fuel : Nat) (nibbles : List Nat) (mid : Nat) (comps : List MessageComponent),
      (componentKeys comps).Nodup → (∀ c ∈ comps, c.message_id < mid) →
      (componentKeys (encodeLoop targets fuel nibbles mid comps).1).Nodup := by
  intro fuel
  induction fuel with
  | zero => intro nibbles mid comps h _; exact h
  | succ fuel ih =>
      intro nibbles mid comps h hlt
      rw [encodeLoop]
      split
      · refine ih _ _ _ ?_ ?_
        · rw [componentKeys, List.map_append, List.nodup_append]
          refine ⟨h, createMessageComponents_keys_nodup _ _ _, ?_⟩
          intro a ha hb
          obtain ⟨c1, hc1, hk1⟩ := List.mem_map.mp ha
          obtain ⟨c2, hc2, hk2⟩ := List.mem_map.mp hb
          have h1 := hlt c1 hc1
          have h2 := createMessageComponents_message_id _ _ _ c2 hc2
          have : c1.message_id = c2.message_id := by
            have := hk1.trans hk2.symm
            exact congrArg Prod.fst this
          omega
        · intro c hc
          rcases List.mem_append.mp hc with hm | hm
          · exact Nat.lt_succ_of_lt (hlt c hm)
          · rw [createMessageComponents_message_id _ _ _ c hm]
            exact Nat.lt_succ_self _
      · exact h

lemma foldl_insert_types (r : Nat) :
    ∀ (pairs : List (NibbleTarget × Nat)) (comps : List MessageComponent),
      (pairs.map Prod.fst).Nodup →
      (∀ p ∈ pairs, ∀ c ∈ comps, sameKey r p.1 c = false) →
      (pairs.foldl (insertNibble r) comps).map (fun c => c.component_type) =
        comps.map (fun c => c.component_type) ++ pairs.map Prod.fst := by
  intro pairs
  induction pairs with
  | nil => intro comps _ _; simp
  | cons p rest ih =>
      intro comps hnodup hfree
      obtain ⟨t, n⟩ := p
      simp only [List.foldl_cons]
      have hfind : comps.find? (sameKey r t) = none :=
        List.find?_eq_none.mpr (fun c hc => by
          rw [hfree (t, n) (by simp) c hc]
          simp)
      have hins : insertNibble r comps (t, n) = comps ++ [⟨r, t, n⟩] := by
        unfold insertNibble
        rw [hfind]
      rw [hins]
      have hnd : (rest.map Prod.fst).Nodup := (List.nodup_cons.mp (by simpa using hnodup)).2
      have hnotmem : t ∉ rest.map Prod.fst := (List.nodup_cons.mp (by simpa using hnodup)).1
      have hfree2 : ∀ q ∈ rest, ∀ c ∈ comps ++ [⟨r, t, n⟩], sameKey r q.1 c = false := by
        intro q hq c hc
        rcases List.mem_append.mp hc with hm | hm
        · exact hfree q (by simp [hq]) c hm
        · simp only [List.mem_singleton] at hm
          subst hm
          have hqt : q.1 ≠ t := by
            intro hqt
            exact hnotmem (hqt ▸ List.mem_map_of_mem Prod.fst hq)
          simp [sameKey, hqt, Ne.symm hqt]
      rw [ih _ hnd hfree2]
      simp

lemma createMessageComponents_length_of_nodup (targets : List NibbleTarget)
    (nibbles : List Nat) (r : Nat) (hnodup : targets.Nodup)
    (hlen : targets.length ≤ nibbles.length) :
    (createMessageComponents targets nibbles r).length = targets.length := by
  have hfst : (targets.zip nibbles).map Prod.fst = targets :=
    List.map_fst_zip targets nibbles hlen
  have := foldl_insert_types r (targets.zip nibbles) []
    (by rw [hfst]; exact hnodup) (by simp)
  unfold createMessageComponents
  have hmaplen := congrArg List.length this
  simp only [List.length_map, List.length_append, List.length_nil, List.nil_append] at hmaplen
  rw [hmaplen, List.length_zip]
  omega

lemma encodeLoop_length_of_nodup (targets : List NibbleTarget)
    (hpos : 0 < targets.length) (hnodup : targets.Nodup) :
    ∀ (fuel : Nat) (nibbles : List Nat) (mid : Nat) (comps : List MessageComponent),
      nibbles.length ≤ fuel →
      (encodeLoop targets fuel nibbles mid comps).1.length =
        comps.length + targets.length * (nibbles.length / targets.length) := by
  intro fuel
  induction fuel with
  | zero =>
      intro nibbles mid comps hle
      have : nibbles = [] := List.length_eq_zero.mp (Nat.le_zero.mp hle)
      subst this
      simp [encodeLoop]
  | succ fuel ih =>
      intro nibbles mid comps hle
      rw [encodeLoop]
      by_cases hguard : targets.length ≤ nibbles.length
      · rw [if_pos ⟨hpos, hguard⟩]
        rw [ih _ _ _ (by simp [List.length_drop]; omega)]
        rw [List.length_append, List.length_drop]
        rw [createMessageComponents_length_of_nodup targets _ mid hnodup
          (by rw [List.length_take]; omega)]
        have hdiv : nibbles.length / targets.length =
            (nibbles.length - targets.length) / targets.length + 1 := by
          rw [Nat.div_eq nibbles.length targets.length, if_pos ⟨hpos, hguard⟩]
        rw [hdiv]
        ring
      · rw [if_neg (by tauto)]
        rw [Nat.div_eq_of_lt (by omega)]
        simp

/-- C10: when a Remainder is returned, its pattern_position is the number of
distinct (RecordId, FieldKind) Components created during the call modulo the
pattern length (the component list has pairwise-distinct keys, so its length
counts distinct Components); for a pattern with pairwise-distinct symbols the
position is therefore always 0. -/
theorem claim_C10 : ∀ (p : List Char) (e : MidiEncoder),
    MidiEncoder.init p = .ok e →
    ∀ (nibbles : List Nat) (targets : List NibbleTarget)
      (msgs : List (MidiMessage × MidiMessage)) (r : Remainder) (rest : List Nat),
      decodePattern e.pattern = some targets →
      e.encode_chunk nibbles = .ok ((msgs, some r), rest) →
      (componentKeys (chunkComponents targets nibbles)).Nodup ∧
      r.pattern_position = (chunkComponents targets nibbles).length % p.length ∧
      (targets.Nodup → r.pattern_position = 0) := by
  intro p e hinit nibbles targets msgs r rest hdec hok
  obtain ⟨⟨hne, -⟩, rfl⟩ := init_ok_iff.mp hinit
  have hlen : targets.length = p.length := length_of_decodePattern hdec
  have hpos : 0 < targets.length := by
    rw [hlen]
    exact List.length_pos.mpr hne
  obtain ⟨-, -, hrem⟩ := encode_chunk_ok_inv _ nibbles targets msgs _ rest hdec hok
  have hkeys : (componentKeys (chunkComponents targets nibbles)).Nodup := by
    unfold chunkComponents
    exact encodeLoop_keys_nodup targets nibbles.length nibbles 0 []
      (by simp [componentKeys]) (by simp)
  have hpp : r.pattern_position = (chunkComponents targets nibbles).length % p.length := by
    split at hrem
    · cases hrem
    · cases hrem
      rfl
  refine ⟨hkeys, hpp, ?_⟩
  intro hnodup
  rw [hpp]
  unfold chunkComponents
  rw [encodeLoop_length_of_nodup targets hpos hnodup nibbles.length nibbles 0 [] le_rfl]
  simp only [List.length_nil, Nat.zero_add]
  rw [← hlen]
  exact Nat.mul_mod_right _ _

/-- C10 witness: at the concrete "cnvtl" call that returns a Remainder, the
keys are distinct, the position is the component count mod 5, and it is 0. -/
theorem claim_C10_witness :
    (componentKeys (chunkComponents [.CHANNEL, .NOTE, .VELOCITY, .TIMING, .LENGTH]
      [0, 3, 12, 4, 0, 1])).Nodup ∧
    (⟨"0001", 0⟩ : Remainder).pattern_position =
      (chunkComponents [.CHANNEL, .NOTE, .VELOCITY, .TIMING, .LENGTH]
        [0, 3, 12, 4, 0, 1]).length % (['c', 'n', 'v', 't', 'l'] : List Char).length ∧
    ([NibbleTarget.CHANNEL, .NOTE, .VELOCITY, .TIMING, .LENGTH].Nodup →
      (⟨"0001", 0⟩ : Remainder).pattern_position = 0) :=
  claim_C10 ['c', 'n', 'v', 't', 'l'] ⟨['c', 'n', 'v', 't', 'l']⟩ (by decide)
    [0, 3, 12, 4, 0, 1] [.CHANNEL, .NOTE, .VELOCITY, .TIMING, .LENGTH]
    [(⟨0, 3, 12, ((4 : Nat) : Rat)⟩, ⟨0, 3, 0, (1 : Rat)⟩)] ⟨"0001", 0⟩ [1]
    rfl rfl
